import Mathlib

/-!
A verification development for the `cwl` log viewer.

The embedding covers the two core subsystems of the repository:

* the paginated retrieval engine (`src/aws/client.rs`): the bounded
  historical fetch `get_log_events`, the live tailer `tail_log_events`
  and their pagination / watermark behaviour;
* the structured-log formatting engine (`src/utils/json_formatter.rs`):
  `flatten_json_to_columns`, `format_json_value`, `parse_log_line`,
  `truncate_string` and `analyze_json_logs`.

Modelling conventions:

* Rust `String` is modelled by Lean `String`; `str.len()` (a byte count
  in Rust) is modelled by `String.utf8ByteSize`.  String comparison in
  Rust (`Ord` on `String`) is byte-lexicographic, which on UTF-8 agrees
  with the codepoint-lexicographic order `charListLt` defined below.
* `BTreeMap<String, String>` / `HashMap<String, usize>` are modelled by
  association lists sorted strictly by key (`alInsert`, `alUpsert`).
  The analyzer's `HashMap`s have nondeterministic iteration order;
  where that order could matter (the column sort) the development
  quantifies over permutations of the canonical enumeration.
* `serde_json::Value` is modelled by `Json` (numbers restricted to
  integers; the claims under verification only involve integer
  numerals, strings, booleans and null).  `serde_json::from_str` is an
  external collaborator and is modelled as a parameter
  `pj : String → Option Json` of the analyzer.
* Fallible Rust code is modelled with `Except`/`Option`: a byte-slice
  `&s[..n]` that would panic (index not on a character boundary, as in
  `truncate_string`) returns `none`.
* `anyhow` error chains are modelled as `List String`, outermost
  context first; `.context(msg)` conses `msg` onto the chain.
-/

/-! ### Character/string primitives (kernel-reducible replacements) -/

/-- Whitespace test used by `str::trim`.  Rust trims Unicode whitespace;
the inputs relevant to the claims only contain ASCII whitespace, for
which this predicate agrees with Rust. -/
def isWsChar (c : Char) : Bool :=
  c = ' ' || c = '\t' || c = '\n' || c = '\r'

/-- `str::trim`: remove leading and trailing whitespace. -/
def trimChars (cs : List Char) : List Char :=
  ((cs.dropWhile isWsChar).reverse.dropWhile isWsChar).reverse

/-- String version of `trimChars`. -/
def strTrim (s : String) : String :=
  String.mk (trimChars s.toList)

/-- Strict lexicographic order on char lists.  Agrees with Rust's
byte-lexicographic `Ord` on `String` (UTF-8 preserves codepoint order). -/
def charListLt : List Char → List Char → Bool
  | [], [] => false
  | [], _ :: _ => true
  | _ :: _, [] => false
  | a :: as, b :: bs => a < b || (a = b && charListLt as bs)

/-- Strict order on strings (Rust `String` `Ord`). -/
def strLt (a b : String) : Bool := charListLt a.toList b.toList

/-- Nonstrict order on strings. -/
def strLe (a b : String) : Bool := !(strLt b a)

/-- `str::find(char)`: index of the first occurrence (here: char index;
every slice taken in `parse_log_line` lies between character
boundaries, so byte and char indexing give the same substrings). -/
def findCharIdx (c : Char) : List Char → Option Nat
  | [] => none
  | x :: xs => if x = c then some 0 else (findCharIdx c xs).map (· + 1)

theorem charListLt_irrefl : ∀ as, charListLt as as = false
  | [] => rfl
  | a :: as => by simp [charListLt, charListLt_irrefl as]

theorem charListLt_asymm : ∀ as bs, charListLt as bs = true → charListLt bs as = false
  | [], [], _ => rfl
  | [], _ :: _, _ => rfl
  | _ :: _, [], h => by simp [charListLt] at h
  | a :: as, b :: bs, h => by
      simp only [charListLt, Bool.or_eq_true, Bool.and_eq_true, decide_eq_true_eq] at h
      simp only [charListLt, Bool.or_eq_false_iff, Bool.and_eq_false_iff,
        decide_eq_false_iff_not]
      rcases h with h | ⟨rfl, h⟩
      · exact ⟨not_lt_of_lt h, Or.inl (ne_of_gt h)⟩
      · exact ⟨lt_irrefl a, Or.inr (charListLt_asymm as bs h)⟩

theorem charListLt_connex : ∀ as bs, charListLt as bs = false → charListLt bs as = false → as = bs
  | [], [], _, _ => rfl
  | [], _ :: _, h, _ => by simp [charListLt] at h
  | _ :: _, [], _, h => by simp [charListLt] at h
  | a :: as, b :: bs, h, h' => by
      simp only [charListLt, Bool.or_eq_false_iff, Bool.and_eq_false_iff,
        decide_eq_false_iff_not] at h h'
      have hab : a = b := le_antisymm (not_lt.mp h'.1) (not_lt.mp h.1)
      subst hab
      rcases h.2 with h2 | h2
      · exact absurd rfl h2
      · rcases h'.2 with h2' | h2'
        · exact absurd rfl h2'
        · rw [charListLt_connex as bs h2 h2']

theorem charListLt_trans : ∀ as bs cs, charListLt as bs = true → charListLt bs cs = true →
    charListLt as cs = true
  | [], [], _, h, _ => by simp [charListLt] at h
  | [], _ :: _, [], _, h => by simp [charListLt] at h
  | [], _ :: _, _ :: _, _, _ => rfl
  | _ :: _, [], _, h, _ => by simp [charListLt] at h
  | _ :: _, _ :: _, [], _, h => by simp [charListLt] at h
  | a :: as, b :: bs, c :: cs, h, h' => by
      simp only [charListLt, Bool.or_eq_true, Bool.and_eq_true, decide_eq_true_eq] at h h' ⊢
      rcases h with h | ⟨rfl, h⟩
      · rcases h' with h' | ⟨rfl, h'⟩
        · exact Or.inl (lt_trans h h')
        · exact Or.inl h
      · rcases h' with h' | ⟨rfl, h'⟩
        · exact Or.inl h'
        · exact Or.inr ⟨rfl, charListLt_trans as bs cs h h'⟩

theorem strLt_irrefl (a : String) : strLt a a = false := charListLt_irrefl _

theorem strLt_asymm {a b : String} (h : strLt a b = true) : strLt b a = false :=
  charListLt_asymm _ _ h

theorem strLt_trans {a b c : String} (h : strLt a b = true) (h' : strLt b c = true) :
    strLt a c = true :=
  charListLt_trans _ _ _ h h'

theorem strLt_connex {a b : String} (h : strLt a b = false) (h' : strLt b a = false) : a = b := by
  have := charListLt_connex a.toList b.toList h h'
  cases a; cases b
  simpa [String.toList] using congrArg String.mk this

/-! ### Sorted association maps (model of `BTreeMap` and of the analyzer's maps) -/

/-- `BTreeMap::insert` on a key-sorted association list: overwrite on an
equal key, otherwise keep the strictly increasing key order. -/
def alInsert {β : Type} (k : String) (v : β) : List (String × β) → List (String × β)
  | [] => [(k, v)]
  | (k', v') :: rest =>
    if strLt k k' = true then (k, v) :: (k', v') :: rest
    else if k = k' then (k, v) :: rest
    else (k', v') :: alInsert k v rest

/-- Map lookup (`BTreeMap::get` / `HashMap::get`). -/
def alookup {β : Type} (k : String) : List (String × β) → Option β
  | [] => none
  | (k', v') :: rest => if k = k' then some v' else alookup k rest

/-- `map.entry(k).and_modify(f).or_insert(d)`. -/
def alUpsert {β : Type} (k : String) (f : β → β) (d : β) (m : List (String × β)) :
    List (String × β) :=
  match alookup k m with
  | some w => alInsert k (f w) m
  | none => alInsert k d m

/-- `map.extend(entries)`: insert every entry in order. -/
def mapExtend {β : Type} (m entries : List (String × β)) : List (String × β) :=
  entries.foldl (fun acc kv => alInsert kv.1 kv.2 acc) m

/-- Key-sortedness invariant of the association-list maps. -/
abbrev KeysSorted {β : Type} (m : List (String × β)) : Prop :=
  m.Pairwise (fun a b => strLt a.1 b.1 = true)

theorem strLt_total {a b : String} (hne : a ≠ b) (h : strLt a b = false) : strLt b a = true := by
  cases hlt : strLt b a
  · exact absurd (strLt_connex h hlt) hne
  · rfl

theorem mem_alInsert {β : Type} {x : String × β} {k : String} {v : β}
    {m : List (String × β)} (h : x ∈ alInsert k v m) : x = (k, v) ∨ x ∈ m := by
  induction m with
  | nil => simpa [alInsert] using h
  | cons hd rest ih =>
    obtain ⟨k', v'⟩ := hd
    by_cases h1 : strLt k k' = true
    · simp only [alInsert, h1, if_true] at h
      rcases List.mem_cons.mp h with rfl | h
      · exact Or.inl rfl
      · exact Or.inr h
    · by_cases h2 : k = k'
      · subst h2
        simp [alInsert, strLt_irrefl] at h
        rcases h with rfl | h
        · exact Or.inl rfl
        · exact Or.inr (List.mem_cons_of_mem _ h)
      · simp only [alInsert, h1, h2, Bool.false_eq_true, ite_false, if_false] at h
        rcases List.mem_cons.mp h with rfl | h
        · exact Or.inr (List.mem_cons_self _ _)
        · rcases ih h with h | h
          · exact Or.inl h
          · exact Or.inr (List.mem_cons_of_mem _ h)

theorem keysSorted_alInsert {β : Type} (k : String) (v : β)
    {m : List (String × β)} (h : KeysSorted m) : KeysSorted (alInsert k v m) := by
  induction m with
  | nil => simp [alInsert]
  | cons hd rest ih =>
    obtain ⟨k', v'⟩ := hd
    obtain ⟨hhead, htail⟩ := List.pairwise_cons.mp h
    by_cases h1 : strLt k k' = true
    · simp only [alInsert, h1, if_true]
      refine List.Pairwise.cons ?_ (List.Pairwise.cons hhead htail)
      intro y hy
      rcases List.mem_cons.mp hy with rfl | hy
      · exact h1
      · exact strLt_trans h1 (hhead y hy)
    · by_cases h2 : k = k'
      · subst h2
        simp only [alInsert, h1, Bool.false_eq_true, ite_false, if_false, ite_true, if_true]
        exact List.Pairwise.cons hhead htail
      · have h1' : strLt k k' = false := by
          cases hb : strLt k k'
          · rfl
          · exact absurd hb h1
        have hk'k : strLt k' k = true := strLt_total h2 h1'
        simp only [alInsert, h1, h2, Bool.false_eq_true, ite_false, if_false]
        refine List.Pairwise.cons ?_ (ih htail)
        intro y hy
        rcases mem_alInsert hy with rfl | hy
        · exact hk'k
        · exact hhead y hy

theorem keysSorted_alUpsert {β : Type} (k : String) (f : β → β) (d : β)
    {m : List (String × β)} (h : KeysSorted m) : KeysSorted (alUpsert k f d m) := by
  unfold alUpsert
  cases alookup k m
  · exact keysSorted_alInsert k d h
  · exact keysSorted_alInsert k _ h

theorem alookup_eq_none {β : Type} {k : String} :
    ∀ {m : List (String × β)}, k ∉ m.map Prod.fst → alookup k m = none
  | [], _ => rfl
  | (k', v') :: rest, h => by
      rw [List.map_cons, List.mem_cons, not_or] at h
      simp [alookup, h.1, alookup_eq_none h.2]

theorem alInsert_perm {β : Type} {k : String} {v : β}
    {m : List (String × β)} (h : k ∉ m.map Prod.fst) :
    List.Perm (alInsert k v m) ((k, v) :: m) := by
  induction m with
  | nil => exact List.Perm.refl _
  | cons hd rest ih =>
    obtain ⟨k', v'⟩ := hd
    rw [List.map_cons, List.mem_cons, not_or] at h
    by_cases h1 : strLt k k' = true
    · simp [alInsert, h1]
    · have step : List.Perm ((k', v') :: alInsert k v rest) ((k, v) :: (k', v') :: rest) :=
        (List.Perm.cons _ (ih h.2)).trans (List.Perm.swap _ _ _)
      simpa [alInsert, h1, h.1] using step

theorem alookup_alInsert_self {β : Type} (k : String) (v : β) :
    ∀ (m : List (String × β)), alookup k (alInsert k v m) = some v
  | [] => by simp [alInsert, alookup]
  | (k', v') :: rest => by
      by_cases h1 : strLt k k' = true
      · simp [alInsert, h1, alookup]
      · by_cases h2 : k = k'
        · subst h2
          simp [alInsert, strLt_irrefl, alookup]
        · simp [alInsert, h1, h2, alookup, alookup_alInsert_self k v rest]

theorem alookup_alInsert_ne {β : Type} {k k' : String} (v : β) (hne : k ≠ k') :
    ∀ (m : List (String × β)), alookup k (alInsert k' v m) = alookup k m
  | [] => by simp [alInsert, alookup, hne]
  | (k'', v'') :: rest => by
      by_cases h1 : strLt k' k'' = true
      · simp [alInsert, h1, alookup, hne]
      · by_cases h2 : k' = k''
        · subst h2
          simp [alInsert, h1, alookup, hne]
        · by_cases h3 : k = k''
          · simp [alInsert, h1, h2, alookup, h3]
          · simp [alInsert, h1, h2, alookup, h3, alookup_alInsert_ne v hne rest]

theorem mapExtend_cons {β : Type} (m : List (String × β)) (k : String) (v : β)
    (l : List (String × β)) : mapExtend m ((k, v) :: l) = mapExtend (alInsert k v m) l := rfl

theorem keysSorted_mapExtend {β : Type} :
    ∀ (l : List (String × β)) {m : List (String × β)}, KeysSorted m →
      KeysSorted (mapExtend m l)
  | [], _, h => h
  | (k, v) :: l, m, h =>
      keysSorted_mapExtend l (keysSorted_alInsert k v h)

theorem alookup_mapExtend_not_mem {β : Type} {k : String} :
    ∀ {l m : List (String × β)}, k ∉ l.map Prod.fst →
      alookup k (mapExtend m l) = alookup k m
  | [], _, _ => rfl
  | (k', v') :: l, m, h => by
      rw [List.map_cons, List.mem_cons, not_or] at h
      rw [mapExtend_cons, alookup_mapExtend_not_mem h.2, alookup_alInsert_ne v' h.1]

theorem alookup_mapExtend_mem {β : Type} {k : String} {v : β} :
    ∀ {l : List (String × β)}, (l.map Prod.fst).Nodup → (k, v) ∈ l →
      ∀ (m : List (String × β)), alookup k (mapExtend m l) = some v
  | (k', v') :: l, hnd, hmem, m => by
      rw [List.map_cons, List.nodup_cons] at hnd
      rcases List.mem_cons.mp hmem with heq | hmem
      · obtain ⟨rfl, rfl⟩ := Prod.mk.injEq .. ▸ heq
        injection heq with h1 h2
        rw [mapExtend_cons, alookup_mapExtend_not_mem hnd.1, alookup_alInsert_self]
      · rw [mapExtend_cons]
        exact alookup_mapExtend_mem hnd.2 hmem _

theorem mapExtend_perm {β : Type} :
    ∀ {l m : List (String × β)}, ((m.map Prod.fst) ++ (l.map Prod.fst)).Nodup →
      List.Perm (mapExtend m l) (m ++ l)
  | [], m, _ => by simp [mapExtend]
  | (k, v) :: l, m, h => by
      have hperm : List.Perm ((m.map Prod.fst) ++ (k :: l.map Prod.fst))
          (k :: ((m.map Prod.fst) ++ (l.map Prod.fst))) := List.perm_middle
      have h' : (k :: ((m.map Prod.fst) ++ (l.map Prod.fst))).Nodup :=
        hperm.nodup_iff.mp (by simpa using h)
      rw [List.nodup_cons, List.mem_append, not_or] at h'
      have hkm : k ∉ m.map Prod.fst := h'.1.1
      have hkeys : List.Perm ((alInsert k v m).map Prod.fst) (k :: m.map Prod.fst) :=
        (alInsert_perm hkm).map Prod.fst
      have hnd' : (((alInsert k v m).map Prod.fst) ++ (l.map Prod.fst)).Nodup := by
        refine (List.Perm.nodup_iff (hkeys.append_right _)).mpr ?_
        rw [List.cons_append, List.nodup_cons]
        refine ⟨?_, h'.2⟩
        rw [List.mem_append]
        rintro (hc | hc)
        · exact h'.1.1 hc
        · exact h'.1.2 hc
      have ih := mapExtend_perm (l := l) (m := alInsert k v m) hnd'
      rw [mapExtend_cons]
      refine ih.trans ?_
      refine (List.Perm.append_right l (alInsert_perm hkm)).trans ?_
      exact List.perm_middle.symm

/-! ### `serde_json::Value` model and the flattener -/

/-- Model of `serde_json::Value`.  Object fields are carried in the
(sorted) iteration order of serde's `BTreeMap`; numbers are restricted
to integers (the claims under verification only involve integers). -/
inductive Json where
  | null
  | bool (b : Bool)
  | num (n : Int)
  | str (s : String)
  | arr (elems : List Json)
  | obj (fields : List (String × Json))

/-- Hex digit for the `\u00XX` escapes of `serde_json`. -/
def hexDigitChar (n : Nat) : Char :=
  if n < 10 then Char.ofNat (48 + n) else Char.ofNat (87 + n)

/-- `serde_json` string escaping (quote, backslash, control characters). -/
def escapeJsonChar (c : Char) : List Char :=
  if c = '"' then ['\\', '"']
  else if c = '\\' then ['\\', '\\']
  else if c = '\n' then ['\\', 'n']
  else if c = '\t' then ['\\', 't']
  else if c = '\r' then ['\\', 'r']
  else if c = Char.ofNat 8 then ['\\', 'b']
  else if c = Char.ofNat 12 then ['\\', 'f']
  else if c.toNat < 32 then
    ['\\', 'u', '0', '0', hexDigitChar (c.toNat / 16), hexDigitChar (c.toNat % 16)]
  else [c]

mutual

/-- `serde_json::to_string` (used by `format_json_value` on containers). -/
def jsonToString : Json → String
  | .null => "null"
  | .bool b => if b then "true" else "false"
  | .num n => toString n
  | .str s => "\"" ++ String.mk (s.toList.flatMap escapeJsonChar) ++ "\""
  | .arr elems => "[" ++ jsonArrToString elems ++ "]"
  | .obj fields => "\x7b" ++ jsonObjToString fields ++ "\x7d"

def jsonArrToString : List Json → String
  | [] => ""
  | v :: rest =>
    match rest with
    | [] => jsonToString v
    | _ :: _ => jsonToString v ++ "," ++ jsonArrToString rest

def jsonObjToString : List (String × Json) → String
  | [] => ""
  | (k, v) :: rest =>
    match rest with
    | [] => "\"" ++ k ++ "\":" ++ jsonToString v
    | _ :: _ => "\"" ++ k ++ "\":" ++ jsonToString v ++ "," ++ jsonObjToString rest

end

/-- `format_json_value` (json_formatter.rs:57-65): strings unquoted,
numbers in decimal, booleans as `true`/`false`, null as the empty
string, containers via `serde_json::to_string`. -/
def format_json_value : Json → String
  | .str s => s
  | .num n => toString n
  | .bool b => if b then "true" else "false"
  | .null => ""
  | v => jsonToString v

mutual

/-- `flatten_json_to_columns` (json_formatter.rs:16-55).  The result is
the `BTreeMap` of path/value pairs, as a key-sorted association list.
The source matches containers first and scalars in a catch-all; here the
scalar constructors are listed first and containers form the catch-all,
which is the same case split. -/
def flatten_json_to_columns (value : Json) (pfx : String) : List (String × String) :=
  match value with
  | .obj fields => flattenObjFields pfx fields []
  | .arr elems => flattenArrElems pfx 0 elems []
  | v => alInsert pfx (format_json_value v) []

/-- The `for (key, val) in map` loop of the `Value::Object` arm,
threading the `result` map being built. -/
def flattenObjFields (pfx : String) (fields : List (String × Json))
    (result : List (String × String)) : List (String × String) :=
  match fields with
  | [] => result
  | (key, val) :: rest =>
    let newPfx := if pfx = "" then key else pfx ++ "." ++ key
    match val with
    | .null => flattenObjFields pfx rest (alInsert newPfx "" result)
    | .bool b => flattenObjFields pfx rest (alInsert newPfx (format_json_value (.bool b)) result)
    | .num n => flattenObjFields pfx rest (alInsert newPfx (format_json_value (.num n)) result)
    | .str s => flattenObjFields pfx rest (alInsert newPfx (format_json_value (.str s)) result)
    | other => flattenObjFields pfx rest (mapExtend result (flatten_json_to_columns other newPfx))

/-- The `for (i, val) in arr.iter().enumerate()` loop of the
`Value::Array` arm. -/
def flattenArrElems (pfx : String) (i : Nat) (elems : List Json)
    (result : List (String × String)) : List (String × String) :=
  match elems with
  | [] => result
  | v :: rest =>
      flattenArrElems pfx (i + 1) rest
        (mapExtend result (flatten_json_to_columns v (pfx ++ "[" ++ toString i ++ "]")))

end

mutual

/-- Spec-side path/value enumeration, following the spec's flattening
rules verbatim: object field `k` under prefix `p` yields path `p.k` (or
`k` if `p` is empty); array element `i` yields `p[i]`; null yields an
empty string at its own path; scalars stringify unquoted/canonically.
Used as the reference for the path-losslessness refinement claim. -/
def specLeafEntries : Json → String → List (String × String)
  | .obj fields, pfx => specLeafFields pfx fields
  | .arr elems, pfx => specLeafElems pfx 0 elems
  | v, pfx => [(pfx, format_json_value v)]

def specLeafFields (pfx : String) : List (String × Json) → List (String × String)
  | [] => []
  | (key, val) :: rest =>
      specLeafEntries val (if pfx = "" then key else pfx ++ "." ++ key) ++
        specLeafFields pfx rest

def specLeafElems (pfx : String) (i : Nat) : List Json → List (String × String)
  | [] => []
  | v :: rest =>
      specLeafEntries v (pfx ++ "[" ++ toString i ++ "]") ++ specLeafElems pfx (i + 1) rest

end

example : flatten_json_to_columns (.obj [("b", .num 2), ("a", .obj [("c", .null)])]) "" =
    [("a.c", ""), ("b", "2")] := rfl

example : specLeafEntries (.obj [("b", .num 2), ("a", .arr [.str "x"])]) "" =
    [("b", "2"), ("a[0]", "x")] := rfl

/-! ### `parse_log_line`, `truncate_string` and the column analyzer -/

/-- `parse_log_line` (json_formatter.rs:152-171): extract the first two
bracketed segments as timestamp and log-group, return the trimmed
remainder as the body; fall back to empty fields when the shape does
not match.  Rust indexes bytes; every index used here is adjacent to an
ASCII `[`/`]` boundary, so char indexing yields the same substrings. -/
def parse_log_line (line : String) : String × String × String :=
  let chars := line.toList
  match findCharIdx ']' chars with
  | some tsEnd =>
    if chars.head? = some '[' then
      let timestamp := String.mk ((chars.drop 1).take (tsEnd - 1))
      let rest := strTrim (String.mk (chars.drop (tsEnd + 1)))
      if rest.toList.head? = some '[' then
        match findCharIdx ']' rest.toList with
        | some groupEnd =>
          let log_group := String.mk ((rest.toList.drop 1).take (groupEnd - 1))
          let json_str := strTrim (String.mk (rest.toList.drop (groupEnd + 1)))
          (timestamp, log_group, json_str)
        | none => (timestamp, "", rest)
      else (timestamp, "", rest)
    else ("", "", line)
  | none => ("", "", line)

/-- Take exactly `n` UTF-8 bytes from the front of a char list:
`none` when `n` is not a character boundary (Rust byte-slicing panics
there) or runs past the end of the string. -/
def takeBytes : List Char → Nat → Option (List Char)
  | _, 0 => some []
  | [], _ + 1 => none
  | c :: cs, n + 1 =>
      if c.utf8Size ≤ n + 1 then (takeBytes cs (n + 1 - c.utf8Size)).map (c :: ·)
      else none

/-- `truncate_string` (json_formatter.rs:173-179).  `s.len()` in Rust is
the UTF-8 byte length, and `&s[..max_len - 3]` slices bytes, panicking
when `max_len - 3` is not a character boundary — the panic is modelled
as `none`. -/
def truncate_string (s : String) (max_len : Nat) : Option String :=
  if s.utf8ByteSize ≤ max_len then some s
  else (takeBytes s.toList (max_len - 3)).map (fun cs => String.mk cs ++ "...")

/-- `ColumnInfo` (json_formatter.rs:5-9). -/
structure ColumnInfo where
  name : String
  frequency : Nat
  max_width : Nat
deriving DecidableEq, Repr

/-- `FormattedOutput` (json_formatter.rs:11-14). -/
structure FormattedOutput where
  columns : List ColumnInfo
  rows : List (List String)
deriving DecidableEq, Repr

/-- The comparator of json_formatter.rs:132-135 as a nonstrict relation:
`b.frequency.cmp(&a.frequency).then_with(|| a.name.cmp(&b.name))` is
`Less` or `Equal`, i.e. descending frequency then ascending name. -/
def colLE (a b : ColumnInfo) : Prop :=
  b.frequency < a.frequency ∨ (a.frequency = b.frequency ∧ strLe a.name b.name = true)

/-- Strict version of `colLE`; on distinct names `colLE` and `colLT`
agree, and `colLT` is a strict order. -/
def colLT (a b : ColumnInfo) : Prop :=
  b.frequency < a.frequency ∨ (a.frequency = b.frequency ∧ strLt a.name b.name = true)

instance : DecidableRel colLE := fun a b => by unfold colLE; infer_instance

instance : DecidableRel colLT := fun a b => by unfold colLT; infer_instance

/-- The analyzer's accumulators (json_formatter.rs:68-70). -/
structure AnalyzerState where
  column_frequency : List (String × Nat)
  column_max_width : List (String × Nat)
  all_rows : List (List (String × String))

/-- The body of the `for (key, value) in &flattened` loop
(json_formatter.rs:89-99) over the (frequency, width, row) accumulator
triple: bump the column frequency, widen the column width by the
value's byte length capped at 100, and insert the value into the row. -/
def flatStep
    (acc : List (String × Nat) × List (String × Nat) × List (String × String))
    (kv : String × String) :
    List (String × Nat) × List (String × Nat) × List (String × String) :=
  (alUpsert kv.1 (· + 1) 1 acc.1,
   alUpsert kv.1 (fun w => max w (min kv.2.utf8ByteSize 100))
     (min kv.2.utf8ByteSize 100) acc.2.1,
   alInsert kv.1 kv.2 acc.2.2)

/-- One iteration of the per-line loop of `analyze_json_logs`
(json_formatter.rs:72-103): extract the prefix fields, seed the row and
the width accumulators, then (when the body parses) fold the flattened
entries through the frequency/width/row updates. -/
def processLine (pj : String → Option Json) (st : AnalyzerState) (log_line : String) :
    AnalyzerState :=
  let parsed := parse_log_line log_line
  let timestamp := parsed.1
  let log_group := parsed.2.1
  let json_str := parsed.2.2
  let row0 := alInsert "log_group" log_group (alInsert "timestamp" timestamp [])
  let width0 := alUpsert "timestamp" (fun w => max w timestamp.utf8ByteSize)
      timestamp.utf8ByteSize st.column_max_width
  let width1 := alUpsert "log_group" (fun w => max w log_group.utf8ByteSize)
      log_group.utf8ByteSize width0
  match pj json_str with
  | some json_value =>
      let flattened := flatten_json_to_columns json_value ""
      let res := flattened.foldl flatStep (st.column_frequency, width1, row0)
      ⟨res.1, res.2.1, st.all_rows ++ [res.2.2]⟩
  | none => ⟨st.column_frequency, width1, st.all_rows ++ [row0]⟩

/-- The `other_columns` construction (json_formatter.rs:122-130): every
column of the frequency map except the two fixed ones, with width
`column_max_width.get(name).unwrap_or(0).max(name.len())`. -/
def otherColumns (freqF widthMap : List (String × Nat)) : List ColumnInfo :=
  (freqF.filter (fun kv => (kv.1 != "timestamp") && (kv.1 != "log_group"))).map
    (fun kv => ⟨kv.1, kv.2, max ((alookup kv.1 widthMap).getD 0) kv.1.utf8ByteSize⟩)

/-- The accumulator state after the per-line loop of
`analyze_json_logs` (json_formatter.rs:72-103). -/
def analyzerState (pj : String → Option Json) (logs : List String) : AnalyzerState :=
  logs.foldl (processLine pj) ⟨[], [], []⟩

/-- The frequency map after the fixed-column overwrite
(json_formatter.rs:105-106): `timestamp` and `log_group` are set to the
total row count. -/
def analyzerFreqFinal (pj : String → Option Json) (logs : List String) :
    List (String × Nat) :=
  alInsert "log_group" logs.length
    (alInsert "timestamp" logs.length (analyzerState pj logs).column_frequency)

/-- The non-fixed columns of the analyzer, before sorting. -/
def analyzerOtherCols (pj : String → Option Json) (logs : List String) : List ColumnInfo :=
  otherColumns (analyzerFreqFinal pj logs) (analyzerState pj logs).column_max_width

/-- The full column list of `analyze_json_logs` (json_formatter.rs:105-137):
fixed `timestamp`/`log_group` columns (frequency = row count, width
floor 9) followed by the other columns sorted by the comparator.
`HashMap` iteration order is arbitrary; the canonical enumeration of the
sorted map is used here, and order-independence of the result is proved
separately. -/
def analyzeColumns (pj : String → Option Json) (logs : List String) : List ColumnInfo :=
  ⟨"timestamp", logs.length,
      max ((alookup "timestamp" (analyzerState pj logs).column_max_width).getD 9) 9⟩ ::
    ⟨"log_group", logs.length,
      max ((alookup "log_group" (analyzerState pj logs).column_max_width).getD 9) 9⟩ ::
    List.insertionSort colLE (analyzerOtherCols pj logs)

/-- Row materialization (json_formatter.rs:139-147): per column, look the
value up in the row map (default empty) and truncate to 100; `none`
when `truncate_string` panics. -/
def materializeRow (columns : List ColumnInfo) (row_map : List (String × String)) :
    Option (List String) :=
  columns.mapM (fun col => truncate_string ((alookup col.name row_map).getD "") 100)

/-- `analyze_json_logs` (json_formatter.rs:67-150), parameterized by the
external `serde_json::from_str` collaborator `pj`.  Returns `none` when
row materialization panics (see `truncate_string`). -/
def analyze_json_logs (pj : String → Option Json) (logs : List String) :
    Option FormattedOutput :=
  ((analyzerState pj logs).all_rows.mapM (materializeRow (analyzeColumns pj logs))).map
    (fun rows => ⟨analyzeColumns pj logs, rows⟩)

/-- The row map a single line contributes (the `row` variable of
json_formatter.rs:75-99): prefix fields first, then the flattened JSON
entries inserted over them. -/
def buildRowMap (pj : String → Option Json) (log_line : String) : List (String × String) :=
  let parsed := parse_log_line log_line
  let row0 := alInsert "log_group" parsed.2.1 (alInsert "timestamp" parsed.1 [])
  match pj parsed.2.2 with
  | some j => mapExtend row0 (flatten_json_to_columns j "")
  | none => row0

example : parse_log_line "[t1] [g1] x" = ("t1", "g1", "x") := rfl

example : parse_log_line "no brackets" = ("", "", "no brackets") := rfl

example : truncate_string "abc" 100 = some "abc" := rfl

/-! ### The retrieval engine model (`src/aws/client.rs`) -/

/-- Model of `FilteredLogEvent`: only the fields the engine inspects. -/
structure LogEvent where
  timestamp : Option Int
  message : Option String
deriving DecidableEq, Repr

/-- One store response: a page of events plus an optional continuation
token (`filter_log_events` response). -/
structure Page where
  events : List LogEvent
  nextToken : Option String
deriving DecidableEq, Repr

/-- The `anyhow` context line attached by `get_log_events`
(client.rs:117). -/
def groupCtx (log_group : String) : String :=
  "Failed to get log events for group: " ++ log_group

/-- The pagination loop of `get_log_events` (client.rs:83-137) over a
given sequence of store responses, also counting the page requests
issued.  `acc` is the `events` accumulator.  Per iteration: the batch
size `min(limit - events.len(), 10000)` computation breaks out when the
remaining count is zero (client.rs:100-108); a fetch failure aborts with
the group name attached as context (client.rs:116-117); otherwise the
page's events are appended, the limit check truncates to the limit and
stops (client.rs:124-130), and an absent continuation token stops
(client.rs:132-136).  The `[]` case (store response sequence exhausted
while the loop would continue) is unreachable for the chained page
sequences the theorems quantify over. -/
def getLogEventsAux (log_group : String) (limit : Option Nat) (acc : List LogEvent) :
    List (Except String Page) → Except (List String) (List LogEvent) × Nat
  | [] => (Except.ok acc, 0)
  | r :: rest =>
    match limit with
    | some l =>
      if l - acc.length = 0 then (Except.ok acc, 0)
      else
        match r with
        | .error cause => (Except.error [groupCtx log_group, cause], 1)
        | .ok page =>
          let acc' := acc ++ page.events
          if l ≤ acc'.length then (Except.ok (acc'.take l), 1)
          else if page.nextToken.isNone then (Except.ok acc', 1)
          else
            let res := getLogEventsAux log_group (some l) acc' rest
            (res.1, res.2 + 1)
    | none =>
      match r with
      | .error cause => (Except.error [groupCtx log_group, cause], 1)
      | .ok page =>
        let acc' := acc ++ page.events
        if page.nextToken.isNone then (Except.ok acc', 1)
        else
          let res := getLogEventsAux log_group none acc' rest
          (res.1, res.2 + 1)

/-- `get_log_events` (client.rs:69-140): the events returned (or the
error chain). -/
def get_log_events (log_group : String) (limit : Option Nat)
    (responses : List (Except String Page)) : Except (List String) (List LogEvent) :=
  (getLogEventsAux log_group limit [] responses).1

/-- Number of page requests `get_log_events` issues. -/
def getLogEventsRequests (log_group : String) (limit : Option Nat)
    (responses : List (Except String Page)) : Nat :=
  (getLogEventsAux log_group limit [] responses).2

/-- Well-formed page sequence as delivered by the store: every page but
the last carries a continuation token, the last one does not. -/
def chainedb : List Page → Bool
  | [] => true
  | [p] => p.nextToken.isNone
  | p :: q :: ps => p.nextToken.isSome && chainedb (q :: ps)

/-- Minimal number of pages needed to collect `l` events from the given
page sequence (all of them when they do not suffice). -/
def pagesNeeded (l : Nat) : List Page → Nat
  | [] => 0
  | p :: ps =>
    if l = 0 then 0
    else if l ≤ p.events.length then 1
    else 1 + pagesNeeded (l - p.events.length) ps

/-- Watermark update over one batch of delivered events
(client.rs:174-179): every event carrying a timestamp advances
`last_event_time` to `timestamp + 1`, in delivery order. -/
def advanceLastTime (w : Option Int) (events : List LogEvent) : Option Int :=
  events.foldl
    (fun w e =>
      match e.timestamp with
      | some t => some (t + 1)
      | none => w) w

/-- Window start of a tail poll (client.rs:159-165): the watermark when
set, otherwise `now - 60000` (60-second lookback). -/
def tailWindowStart (w : Option Int) (now : Int) : Int :=
  match w with
  | some t => t
  | none => now - 60000

/-- The polling loop of `tail_log_events` (client.rs:151-187) over a
finite list of observed store responses (the real loop is endless; the
continuation-token threading only selects which response the store
sends next, which the response list already encodes).  Events are
delivered to the callback in arrival order — modelled by collecting
them — and a page-fetch failure aborts the loop, propagated bare
(client.rs:171 uses plain `?` with no added context). -/
def tail_log_events (w : Option Int) :
    List (Except String Page) → Except (List String) (List LogEvent)
  | [] => Except.ok []
  | .error cause :: _ => Except.error [cause]
  | .ok page :: rest =>
      (tail_log_events (advanceLastTime w page.events) rest).map (page.events ++ ·)

example :
    get_log_events "g" (some 2)
      [Except.ok ⟨[⟨some 1, some "a"⟩, ⟨some 2, some "b"⟩, ⟨some 3, some "c"⟩], none⟩] =
      Except.ok [⟨some 1, some "a"⟩, ⟨some 2, some "b"⟩] := rfl

example :
    get_log_events "g" none [Except.error "boom"] =
      Except.error ["Failed to get log events for group: g", "boom"] := rfl

/-! ### Lemmas: bounded fetch -/

theorem isNone_eq_false_of_isSome {α : Type} {o : Option α} (h : o.isSome = true) :
    o.isNone = false := by
  cases o
  · simp at h
  · rfl

theorem getAux_some_continue (log_group : String) (l : Nat) (acc : List LogEvent) (p : Page)
    (rest : List (Except String Page)) (h0 : ¬(l - acc.length = 0))
    (hle : ¬(l ≤ (acc ++ p.events).length)) (hnone : p.nextToken.isNone = false) :
    getLogEventsAux log_group (some l) acc (Except.ok p :: rest) =
      ((getLogEventsAux log_group (some l) (acc ++ p.events) rest).1,
        (getLogEventsAux log_group (some l) (acc ++ p.events) rest).2 + 1) := by
  have hle' : ¬(l ≤ acc.length + p.events.length) := by simpa using hle
  simp [getLogEventsAux, h0, hle', hnone]

theorem getAux_none_continue (log_group : String) (acc : List LogEvent) (p : Page)
    (rest : List (Except String Page)) (hnone : p.nextToken.isNone = false) :
    getLogEventsAux log_group none acc (Except.ok p :: rest) =
      ((getLogEventsAux log_group none (acc ++ p.events) rest).1,
        (getLogEventsAux log_group none (acc ++ p.events) rest).2 + 1) := by
  simp [getLogEventsAux, hnone]

theorem getAux_limit (log_group : String) (l : Nat) :
    ∀ (ps : List Page) (acc : List LogEvent), chainedb ps = true → acc.length < l →
      getLogEventsAux log_group (some l) acc (ps.map Except.ok) =
        (Except.ok ((acc ++ ps.flatMap Page.events).take l), pagesNeeded (l - acc.length) ps)
  | [], acc, _, hlt => by
      simp [getLogEventsAux, pagesNeeded, List.take_of_length_le (le_of_lt hlt)]
  | p :: ps, acc, hch, hlt => by
      have h0 : ¬(l - acc.length = 0) := Nat.sub_ne_zero_of_lt hlt
      have hacc' : (acc ++ p.events).length = acc.length + p.events.length :=
        List.length_append _ _
      rw [List.map_cons]
      by_cases hle : l ≤ (acc ++ p.events).length
      · have hneed : l - acc.length ≤ p.events.length := by omega
        have hstep : getLogEventsAux log_group (some l) acc (Except.ok p :: List.map Except.ok ps)
            = (Except.ok ((acc ++ p.events).take l), 1) := by
          have hle2 : l ≤ acc.length + p.events.length := by simpa using hle
          simp [getLogEventsAux, h0, hle2]
        have htake : (acc ++ (p :: ps).flatMap Page.events).take l =
            (acc ++ p.events).take l := by
          rw [List.flatMap_cons, ← List.append_assoc]
          exact List.take_append_of_le_length hle
        have hpn : pagesNeeded (l - acc.length) (p :: ps) = 1 := by
          simp [pagesNeeded, h0, hneed]
        rw [hstep, htake, hpn]
      · cases ps with
        | nil =>
            have hnone : p.nextToken.isNone = true := by simpa [chainedb] using hch
            have htake : (acc ++ p.events).take l = acc ++ p.events :=
              List.take_of_length_le (le_of_not_le hle)
            have hneed : ¬(l - acc.length ≤ p.events.length) := by omega
            simp [getLogEventsAux, h0, hle, hnone, pagesNeeded, hneed, htake]
        | cons q ps' =>
            have hch' : chainedb (q :: ps') = true := by
              simp only [chainedb, Bool.and_eq_true] at hch
              exact hch.2
            have hsome : p.nextToken.isSome = true := by
              simp only [chainedb, Bool.and_eq_true] at hch
              exact hch.1
            have hnone : p.nextToken.isNone = false := isNone_eq_false_of_isSome hsome
            have hlt' : (acc ++ p.events).length < l := lt_of_not_le hle
            have ih := getAux_limit log_group l (q :: ps') (acc ++ p.events) hch' hlt'
            have hneed : ¬(l - acc.length ≤ p.events.length) := by omega
            rw [getAux_some_continue log_group l acc p _ h0 hle hnone, ih]
            have harr : acc ++ p.events ++ (q :: ps').flatMap Page.events =
                acc ++ (p :: q :: ps').flatMap Page.events := by
              simp [List.flatMap_cons, List.append_assoc]
            have hpn : pagesNeeded (l - acc.length) (p :: q :: ps') =
                pagesNeeded (l - (acc ++ p.events).length) (q :: ps') + 1 := by
              have harith : l - (acc ++ p.events).length =
                  l - acc.length - p.events.length := by omega
              simp only [pagesNeeded, h0, hneed, if_false, ite_false, harith]
              omega
            rw [harr, hpn]

theorem getAux_noLimit (log_group : String) :
    ∀ (ps : List Page) (acc : List LogEvent), chainedb ps = true →
      getLogEventsAux log_group none acc (ps.map Except.ok) =
        (Except.ok (acc ++ ps.flatMap Page.events), ps.length)
  | [], acc, _ => by simp [getLogEventsAux]
  | p :: ps, acc, hch => by
      rw [List.map_cons]
      cases ps with
      | nil =>
          have hnone : p.nextToken.isNone = true := by simpa [chainedb] using hch
          simp [getLogEventsAux, hnone]
      | cons q ps' =>
          have hch' : chainedb (q :: ps') = true := by
            simp only [chainedb, Bool.and_eq_true] at hch
            exact hch.2
          have hsome : p.nextToken.isSome = true := by
            simp only [chainedb, Bool.and_eq_true] at hch
            exact hch.1
          have hnone : p.nextToken.isNone = false := isNone_eq_false_of_isSome hsome
          have ih := getAux_noLimit log_group (q :: ps') (acc ++ p.events) hch'
          rw [getAux_none_continue log_group acc p _ hnone, ih]
          have harr : acc ++ p.events ++ (q :: ps').flatMap Page.events =
              acc ++ (p :: q :: ps').flatMap Page.events := by
            simp [List.flatMap_cons, List.append_assoc]
          rw [harr]
          exact Prod.ext rfl (by simp)

theorem getAux_count_le (log_group : String) (limit : Option Nat) :
    ∀ (rs : List (Except String Page)) (acc : List LogEvent),
      (getLogEventsAux log_group limit acc rs).2 ≤ rs.length
  | [], _ => by simp [getLogEventsAux]
  | r :: rest, acc => by
      have ih := fun acc' => getAux_count_le log_group limit rest acc'
      cases limit with
      | some l =>
          by_cases h0 : l - acc.length = 0
          · simp [getLogEventsAux, h0]
          · cases r with
            | error cause => simp [getLogEventsAux, h0]
            | ok page =>
                by_cases h1 : l ≤ acc.length + page.events.length
                · simp [getLogEventsAux, h0, h1]
                · by_cases h2 : page.nextToken.isNone = true
                  · simp [getLogEventsAux, h0, h1, h2]
                  · have h2' : page.nextToken.isNone = false := Bool.eq_false_iff.mpr h2
                    have hc := ih (acc ++ page.events)
                    simp only [getLogEventsAux, h0, h1, h2', Bool.false_eq_true, if_false,
                      ite_false, List.length_append, List.length_cons]
                    omega
      | none =>
          cases r with
          | error cause => simp [getLogEventsAux]
          | ok page =>
              by_cases h2 : page.nextToken.isNone = true
              · simp [getLogEventsAux, h2]
              · have h2' : page.nextToken.isNone = false := Bool.eq_false_iff.mpr h2
                have hc := ih (acc ++ page.events)
                simp only [getLogEventsAux, h2', Bool.false_eq_true, if_false, ite_false,
                  List.length_cons]
                omega

theorem getAux_extra (log_group : String) (limit : Option Nat) :
    ∀ (ps : List Page) (extra : List (Except String Page)) (acc : List LogEvent),
      chainedb ps = true → ps ≠ [] →
      getLogEventsAux log_group limit acc (ps.map Except.ok ++ extra) =
        getLogEventsAux log_group limit acc (ps.map Except.ok)
  | [], _, _, _, hne => absurd rfl hne
  | [p], extra, acc, hch, _ => by
      have hnone : p.nextToken.isNone = true := by simpa [chainedb] using hch
      cases limit with
      | some l =>
          by_cases h0 : l - acc.length = 0
          · simp [getLogEventsAux, h0]
          · by_cases h1 : l ≤ acc.length + p.events.length
            · simp [getLogEventsAux, h0, h1]
            · simp [getLogEventsAux, h0, h1, hnone]
      | none => simp [getLogEventsAux, hnone]
  | p :: q :: ps', extra, acc, hch, _ => by
      have hch' : chainedb (q :: ps') = true := by
        simp only [chainedb, Bool.and_eq_true] at hch
        exact hch.2
      have hsome : p.nextToken.isSome = true := by
        simp only [chainedb, Bool.and_eq_true] at hch
        exact hch.1
      have hnone : p.nextToken.isNone = false := isNone_eq_false_of_isSome hsome
      have ih := getAux_extra log_group limit (q :: ps') extra (acc ++ p.events) hch'
        (by simp)
      cases limit with
      | some l =>
          by_cases h0 : l - acc.length = 0
          · simp [getLogEventsAux, h0]
          · by_cases h1 : l ≤ acc.length + p.events.length
            · simp [getLogEventsAux, h0, h1]
            · have h1' : ¬(l ≤ (acc ++ p.events).length) := by simpa using h1
              rw [List.map_cons, List.cons_append,
                getAux_some_continue log_group l acc p _ h0 h1' hnone,
                getAux_some_continue log_group l acc p _ h0 h1' hnone, ih]
      | none =>
          rw [List.map_cons, List.cons_append,
            getAux_none_continue log_group acc p _ hnone,
            getAux_none_continue log_group acc p _ hnone, ih]

/-- C1: for every optional limit `L` and every chained page sequence
the store returns (with `N` events in total), `get_log_events` returns
exactly the first `min(L, N)` events when the limit is set — the
events in store order with only a suffix discarded (`take L`) — all
`N` events when no limit is set, and it issues exactly the minimal
number of page requests needed to reach `L`. -/
theorem get_log_events_bounded (log_group : String) (L : Nat) (ps : List Page)
    (hch : chainedb ps = true) :
    get_log_events log_group (some L) (ps.map Except.ok) =
        Except.ok ((ps.flatMap Page.events).take L) ∧
      get_log_events log_group none (ps.map Except.ok) =
        Except.ok (ps.flatMap Page.events) ∧
      ((ps.flatMap Page.events).take L).length = min L (ps.flatMap Page.events).length ∧
      getLogEventsRequests log_group (some L) (ps.map Except.ok) = pagesNeeded L ps := by
  have hnoL := getAux_noLimit log_group ps [] hch
  have hmain : getLogEventsAux log_group (some L) [] (ps.map Except.ok) =
      (Except.ok ((ps.flatMap Page.events).take L), pagesNeeded L ps) := by
    rcases Nat.eq_zero_or_pos L with rfl | hL
    · cases ps with
      | nil => simp [getLogEventsAux, pagesNeeded]
      | cons p ps' => simp [getLogEventsAux, pagesNeeded]
    · have h := getAux_limit log_group L ps [] hch (by simpa using hL)
      simpa using h
  exact ⟨congrArg Prod.fst hmain, by simpa [get_log_events] using congrArg Prod.fst hnoL,
    List.length_take _ _, congrArg Prod.snd hmain⟩

/-- Concrete two-page store used by the C1 witness. -/
def c1Pages : List Page :=
  [⟨[⟨some 1, some "a"⟩, ⟨some 2, some "b"⟩], some "tok"⟩,
   ⟨[⟨some 3, some "c"⟩, ⟨some 4, some "d"⟩], none⟩]

/-- Witness for C1: a two-page store with four events and limit 3. -/
theorem get_log_events_bounded_witness :
    get_log_events "grp" (some 3) (c1Pages.map Except.ok) =
        Except.ok ((c1Pages.flatMap Page.events).take 3) ∧
      get_log_events "grp" none (c1Pages.map Except.ok) =
        Except.ok (c1Pages.flatMap Page.events) ∧
      ((c1Pages.flatMap Page.events).take 3).length =
        min 3 (c1Pages.flatMap Page.events).length ∧
      getLogEventsRequests "grp" (some 3) (c1Pages.map Except.ok) = pagesNeeded 3 c1Pages :=
  get_log_events_bounded "grp" 3 c1Pages (by decide)

/-- C8: for every response sequence whose final page carries no
continuation token (`chainedb`), the bounded fetch stops after
consuming that response: appending any further store responses changes
neither the result nor the number of requests issued, and the request
count never exceeds the page count. -/
theorem get_log_events_terminates (log_group : String) (limit : Option Nat) (ps : List Page)
    (extra : List (Except String Page)) (hch : chainedb ps = true) (hne : ps ≠ []) :
    get_log_events log_group limit (ps.map Except.ok ++ extra) =
        get_log_events log_group limit (ps.map Except.ok) ∧
      getLogEventsRequests log_group limit (ps.map Except.ok ++ extra) =
        getLogEventsRequests log_group limit (ps.map Except.ok) ∧
      getLogEventsRequests log_group limit (ps.map Except.ok) ≤ ps.length := by
  have h := getAux_extra log_group limit ps extra [] hch hne
  refine ⟨congrArg Prod.fst h, congrArg Prod.snd h, ?_⟩
  have hc := getAux_count_le log_group limit (ps.map Except.ok) []
  simpa using hc

/-- Witness for C8: a single exhausted page followed by junk responses
the fetch never requests. -/
theorem get_log_events_terminates_witness :
    get_log_events "grp" none ([(⟨[⟨some 7, none⟩], none⟩ : Page)].map Except.ok ++
          [Except.error "unreachable"]) =
        get_log_events "grp" none ([(⟨[⟨some 7, none⟩], none⟩ : Page)].map Except.ok) ∧
      getLogEventsRequests "grp" none ([(⟨[⟨some 7, none⟩], none⟩ : Page)].map Except.ok ++
          [Except.error "unreachable"]) =
        getLogEventsRequests "grp" none ([(⟨[⟨some 7, none⟩], none⟩ : Page)].map Except.ok) ∧
      getLogEventsRequests "grp" none ([(⟨[⟨some 7, none⟩], none⟩ : Page)].map Except.ok) ≤
        [(⟨[⟨some 7, none⟩], none⟩ : Page)].length :=
  get_log_events_terminates "grp" none [⟨[⟨some 7, none⟩], none⟩]
    [Except.error "unreachable"] (by decide) (by decide)

/-! ### Lemmas: live tailer -/

theorem advanceLastTime_cons (w : Option Int) (e : LogEvent) (rest : List LogEvent) :
    advanceLastTime w (e :: rest) =
      advanceLastTime
        (match e.timestamp with
          | some t => some (t + 1)
          | none => w) rest := rfl

theorem advance_some_ge (now : Int) :
    ∀ (rest : List LogEvent) (v : Int),
      (∀ x ∈ rest.filterMap LogEvent.timestamp, v ≤ x) →
      (rest.filterMap LogEvent.timestamp).Pairwise (· ≤ ·) →
      v + 1 ≤ tailWindowStart (advanceLastTime (some (v + 1)) rest) now
  | [], v, _, _ => le_refl _
  | e :: rest, v, hlow, hpw => by
      cases he : e.timestamp with
      | none =>
          have hfm : (e :: rest).filterMap LogEvent.timestamp =
              rest.filterMap LogEvent.timestamp := by
            simp [List.filterMap_cons, he]
          rw [hfm] at hlow hpw
          rw [advanceLastTime_cons, he]
          show v + 1 ≤ tailWindowStart (advanceLastTime (some (v + 1)) rest) now
          exact advance_some_ge now rest v hlow hpw
      | some t1 =>
          have hfm : (e :: rest).filterMap LogEvent.timestamp =
              t1 :: rest.filterMap LogEvent.timestamp := by
            simp [List.filterMap_cons, he]
          rw [hfm] at hlow hpw
          obtain ⟨hhead, htail⟩ := List.pairwise_cons.mp hpw
          have hv : v ≤ t1 := hlow t1 (List.mem_cons_self _ _)
          have ih := advance_some_ge now rest t1 hhead htail
          rw [advanceLastTime_cons, he]
          show v + 1 ≤ tailWindowStart (advanceLastTime (some (t1 + 1)) rest) now
          omega
  termination_by rest => rest.length

theorem advance_ge_aux (now : Int) :
    ∀ (events : List LogEvent) (w : Option Int),
      (events.filterMap LogEvent.timestamp).Pairwise (· ≤ ·) →
      ∀ t ∈ events.filterMap LogEvent.timestamp,
        t + 1 ≤ tailWindowStart (advanceLastTime w events) now
  | [], _, _, t, ht => by simp at ht
  | e :: rest, w, hpw, t, ht => by
      cases he : e.timestamp with
      | none =>
          have hfm : (e :: rest).filterMap LogEvent.timestamp =
              rest.filterMap LogEvent.timestamp := by
            simp [List.filterMap_cons, he]
          rw [hfm] at hpw ht
          rw [advanceLastTime_cons, he]
          show t + 1 ≤ tailWindowStart (advanceLastTime w rest) now
          exact advance_ge_aux now rest w hpw t ht
      | some t0 =>
          have hfm : (e :: rest).filterMap LogEvent.timestamp =
              t0 :: rest.filterMap LogEvent.timestamp := by
            simp [List.filterMap_cons, he]
          rw [hfm] at hpw ht
          obtain ⟨hhead, htail⟩ := List.pairwise_cons.mp hpw
          rw [advanceLastTime_cons, he]
          show t + 1 ≤ tailWindowStart (advanceLastTime (some (t0 + 1)) rest) now
          rcases List.mem_cons.mp ht with rfl | ht
          · exact advance_some_ge now rest t hhead htail
          · exact advance_ge_aux now rest (some (t0 + 1)) htail t ht
  termination_by events => events.length

/-- C2: the live tailer's watermark invariant.  Whenever one poll's
batch is delivered in nondecreasing timestamp order (each consecutive
timestamped pair satisfies `t1 ≤ t2`), then for every delivered
timestamp `t` the next poll's window start — `tailWindowStart` of the
updated watermark, which the tailer advances to `timestamp + 1` per
delivered event (see `tail_log_events`/`advanceLastTime`) — is at
least `t + 1`, so a passed timestamp is never re-delivered. -/
theorem tail_watermark_invariant (w : Option Int) (events : List LogEvent) (now : Int)
    (hsorted : (events.filterMap LogEvent.timestamp).Chain' (· ≤ ·)) :
    ∀ t ∈ events.filterMap LogEvent.timestamp,
      t + 1 ≤ tailWindowStart (advanceLastTime w events) now :=
  advance_ge_aux now events w (List.chain'_iff_pairwise.mp hsorted)

/-- Witness for C2: two events with timestamps 5 and 7 delivered from a
fresh watermark; the next window start excludes timestamp 5. -/
theorem tail_watermark_invariant_witness :
    (5 : Int) + 1 ≤ tailWindowStart
      (advanceLastTime none [⟨some 5, none⟩, ⟨some 7, none⟩]) 0 :=
  tail_watermark_invariant none [⟨some 5, none⟩, ⟨some 7, none⟩] 0
    (by simp [List.chain'_cons]) 5 (by decide)

/-! ### Lemmas: error propagation -/

theorem getAux_error_context (log_group : String) (limit : Option Nat) :
    ∀ (rs : List (Except String Page)) (acc : List LogEvent) (e : List String),
      (getLogEventsAux log_group limit acc rs).1 = Except.error e →
      ∃ cause, e = [groupCtx log_group, cause] ∧ Except.error cause ∈ rs
  | [], acc, e, h => by simp [getLogEventsAux] at h
  | r :: rest, acc, e, h => by
      cases limit with
      | some l =>
          by_cases h0 : l - acc.length = 0
          · simp [getLogEventsAux, h0] at h
          · cases r with
            | error cause =>
                simp [getLogEventsAux, h0] at h
                exact ⟨cause, by simp [h], List.mem_cons_self _ _⟩
            | ok page =>
                by_cases h1 : l ≤ acc.length + page.events.length
                · simp [getLogEventsAux, h0, h1] at h
                · by_cases h2 : page.nextToken.isNone = true
                  · simp [getLogEventsAux, h0, h1, h2] at h
                  · have h2' : page.nextToken.isNone = false := Bool.eq_false_iff.mpr h2
                    have h' : (getLogEventsAux log_group (some l) (acc ++ page.events)
                        rest).1 = Except.error e := by
                      simp only [getLogEventsAux, h0, h1, h2', Bool.false_eq_true, if_false,
                        ite_false, List.length_append] at h
                      exact h
                    obtain ⟨cause, hc, hm⟩ :=
                      getAux_error_context log_group (some l) rest (acc ++ page.events) e h'
                    exact ⟨cause, hc, List.mem_cons_of_mem _ hm⟩
      | none =>
          cases r with
          | error cause =>
              simp [getLogEventsAux] at h
              exact ⟨cause, by simp [h], List.mem_cons_self _ _⟩
          | ok page =>
              by_cases h2 : page.nextToken.isNone = true
              · simp [getLogEventsAux, h2] at h
              · have h2' : page.nextToken.isNone = false := Bool.eq_false_iff.mpr h2
                have h' : (getLogEventsAux log_group none (acc ++ page.events) rest).1 =
                    Except.error e := by
                  simp only [getLogEventsAux, h2', Bool.false_eq_true, if_false,
                    ite_false] at h
                  exact h
                obtain ⟨cause, hc, hm⟩ :=
                  getAux_error_context log_group none rest (acc ++ page.events) e h'
                exact ⟨cause, hc, List.mem_cons_of_mem _ hm⟩

theorem tail_error_bare :
    ∀ (rs : List (Except String Page)) (w : Option Int) (e : List String),
      tail_log_events w rs = Except.error e →
      ∃ cause, e = [cause] ∧ Except.error cause ∈ rs
  | [], _, e, h => by simp [tail_log_events] at h
  | Except.error cause :: rest, _, e, h => by
      simp [tail_log_events] at h
      exact ⟨cause, by simp [h], List.mem_cons_self _ _⟩
  | Except.ok page :: rest, w, e, h => by
      simp only [tail_log_events] at h
      cases htail : tail_log_events (advanceLastTime w page.events) rest with
      | error e' =>
          rw [htail] at h
          simp [Except.map] at h
          obtain ⟨cause, hc, hm⟩ :=
            tail_error_bare rest (advanceLastTime w page.events) e' htail
          exact ⟨cause, h ▸ hc, List.mem_cons_of_mem _ hm⟩
      | ok evs =>
          rw [htail] at h
          simp [Except.map] at h

/-- Does `needle` start `hay`? -/
def startsWithChars : List Char → List Char → Bool
  | [], _ => true
  | _ :: _, [] => false
  | a :: as, b :: bs => a = b && startsWithChars as bs

/-- Substring occurrence test on char lists. -/
def containsChars (needle : List Char) : List Char → Bool
  | [] => needle.isEmpty
  | b :: bs => startsWithChars needle (b :: bs) || containsChars needle bs

/-- Does the string `hay` contain `needle` as a substring? -/
def strContains (hay needle : String) : Bool :=
  containsChars needle.toList hay.toList

/-- C7 counterexample: the live tailer propagates the bare store error
(client.rs:171 uses `?` with no `.context`), so its error does not
carry the group name — refuting the claim that both operations attach
the group name as context.  Here the tail over group "my-group" fails
with "connection reset" and no component of the returned error chain
contains "my-group". -/
theorem tail_error_no_group_counterexample :
    tail_log_events none
        [Except.ok ⟨[⟨some 1, none⟩], some "t"⟩, Except.error "connection reset"] =
      Except.error ["connection reset"] ∧
      ∀ s ∈ ["connection reset"], strContains s "my-group" = false := by
  exact ⟨rfl, by decide⟩

/-- C7 (amended): a page-fetch failure makes both operations return an
error and no events — no partial results survive.  The bounded query
(`get_log_events`) attaches the group name as context
(`groupCtx log_group` heads the error chain); the live tailer
(`tail_log_events`) propagates the bare store error without the group
name attached. -/
theorem fetch_error_handling (log_group : String) (limit : Option Nat)
    (rs : List (Except String Page)) (e : List String) :
    (get_log_events log_group limit rs = Except.error e →
      ∃ cause, e = [groupCtx log_group, cause] ∧ Except.error cause ∈ rs) ∧
    (∀ w, tail_log_events w rs = Except.error e →
      ∃ cause, e = [cause] ∧ Except.error cause ∈ rs) :=
  ⟨fun h => getAux_error_context log_group limit rs [] e h,
   fun w h => tail_error_bare rs w e h⟩

/-- Witness for C7 (amended): a store whose first fetch fails with
"boom"; the bounded query wraps it in the group context, the tailer
returns it bare. -/
theorem fetch_error_handling_witness :
    (∃ cause, [groupCtx "g", "boom"] = [groupCtx "g", cause] ∧
        Except.error cause ∈ ([Except.error "boom"] : List (Except String Page))) ∧
      ∃ cause, (["boom"] : List String) = [cause] ∧
        Except.error cause ∈ ([Except.error "boom"] : List (Except String Page)) :=
  ⟨(fetch_error_handling "g" none [Except.error "boom"] [groupCtx "g", "boom"]).1 rfl,
   (fetch_error_handling "g" none [Except.error "boom"] ["boom"]).2 none rfl⟩

/-! ### Truncation claims -/

/-- 101 bytes, 100 characters: byte 97 falls inside the two-byte `é`. -/
def c10Value : String := String.mk (List.replicate 96 'a' ++ ['é', 'a', 'a', 'a'])

/-- 101 bytes, 99 characters: byte 97 falls inside the three-byte CJK
character. -/
def c6Value : String := String.mk (List.replicate 96 'a' ++ ['日', 'a', 'a'])

set_option maxRecDepth 8000 in
/-- C10: cell truncation measures length in bytes and slices the string
at byte index 97: on a value longer than 100 bytes whose byte 97 falls
inside a multi-byte UTF-8 character, `truncate_string` — and hence the
row-materialization step of `analyze_json_logs` — panics (modelled as
`none`) instead of returning a result; the operation is not total.
`c10Value` has 100 characters but 101 bytes, so a character-based
length would not even trigger truncation. -/
theorem truncate_string_byte_panic :
    c10Value.utf8ByteSize = 101 ∧ c10Value.length = 100 ∧
      truncate_string c10Value 100 = none ∧
      analyze_json_logs (fun _ => some (Json.obj [("msg", Json.str c10Value)]))
        ["[t] [g] x"] = none := by
  refine ⟨by decide, by decide, rfl, rfl⟩

set_option maxRecDepth 8000 in
/-- C6 (code bug): the claim says a value of length at most 100 renders
unchanged and a longer one renders as its first 97 characters plus a
3-character ellipsis.  The code measures bytes, and byte-slices at
index 97: on `c6Value` (99 characters, hence "length at most 100" as
the spec reads, but 101 bytes) `truncate_string` panics (`none`)
instead of rendering anything. -/
theorem truncate_multibyte_code_bug :
    c6Value.length = 99 ∧ c6Value.utf8ByteSize = 101 ∧
      truncate_string c6Value 100 = none := by
  refine ⟨by decide, by decide, rfl⟩

/-! ### Flattening is path-lossless (C4) -/

theorem flattenObjFields_eq (pfx : String) (key : String) (val : Json)
    (rest : List (String × Json)) (result : List (String × String)) :
    flattenObjFields pfx ((key, val) :: rest) result =
      flattenObjFields pfx rest
        (mapExtend result
          (flatten_json_to_columns val (if pfx = "" then key else pfx ++ "." ++ key))) := by
  cases val <;> rfl

theorem extend_step {β : Type} {result child spec rest : List (String × β)}
    (hperm : List.Perm child spec)
    (hnd : ((result.map Prod.fst) ++ ((spec ++ rest).map Prod.fst)).Nodup) :
    List.Perm (mapExtend result child) (result ++ spec) ∧
      (((mapExtend result child).map Prod.fst) ++ (rest.map Prod.fst)).Nodup := by
  have hkeys : List.Perm (child.map Prod.fst) (spec.map Prod.fst) := hperm.map _
  rw [List.map_append] at hnd
  have hnd2 : (((result.map Prod.fst) ++ spec.map Prod.fst) ++ rest.map Prod.fst).Nodup := by
    rw [List.append_assoc]
    exact hnd
  have hndRS : ((result.map Prod.fst) ++ spec.map Prod.fst).Nodup :=
    hnd2.sublist (List.sublist_append_left _ _)
  have hndRC : ((result.map Prod.fst) ++ child.map Prod.fst).Nodup :=
    ((List.Perm.append_left _ hkeys).nodup_iff).mpr hndRS
  have hperm1 : List.Perm (mapExtend result child) (result ++ child) := mapExtend_perm hndRC
  refine ⟨hperm1.trans (List.Perm.append_left result hperm), ?_⟩
  have hk2 : List.Perm ((mapExtend result child).map Prod.fst)
      ((result.map Prod.fst) ++ spec.map Prod.fst) := by
    have h3 := hperm1.map Prod.fst
    rw [List.map_append] at h3
    exact h3.trans (List.Perm.append_left _ hkeys)
  refine ((hk2.append_right (rest.map Prod.fst)).nodup_iff).mpr ?_
  rw [List.append_assoc]
  exact hnd

mutual

theorem flatten_perm : ∀ (v : Json) (pfx : String),
    ((specLeafEntries v pfx).map Prod.fst).Nodup →
    List.Perm (flatten_json_to_columns v pfx) (specLeafEntries v pfx)
  | .null, pfx, _ => by
      show List.Perm (alInsert pfx "" []) [(pfx, "")]
      exact List.Perm.refl _
  | .bool b, pfx, _ => List.Perm.refl _
  | .num n, pfx, _ => List.Perm.refl _
  | .str s, pfx, _ => List.Perm.refl _
  | .arr elems, pfx, hnd => by
      have h := flattenArrElems_perm elems pfx 0 [] (by simpa using hnd)
      simpa using h
  | .obj fields, pfx, hnd => by
      have h := flattenObjFields_perm fields pfx [] (by simpa using hnd)
      simpa using h

theorem flattenObjFields_perm : ∀ (fields : List (String × Json)) (pfx : String)
      (result : List (String × String)),
      ((result.map Prod.fst) ++ ((specLeafFields pfx fields).map Prod.fst)).Nodup →
      List.Perm (flattenObjFields pfx fields result) (result ++ specLeafFields pfx fields)
  | [], pfx, result, _ => by simp [flattenObjFields, specLeafFields]
  | (key, val) :: rest, pfx, result, hnd => by
      rw [flattenObjFields_eq]
      have hspec : specLeafFields pfx ((key, val) :: rest) =
          specLeafEntries val (if pfx = "" then key else pfx ++ "." ++ key) ++
            specLeafFields pfx rest := rfl
      rw [hspec] at hnd
      have hndRest : ((specLeafEntries val (if pfx = "" then key else pfx ++ "." ++ key) ++
          specLeafFields pfx rest).map Prod.fst).Nodup :=
        (List.nodup_append.mp (by simpa [List.map_append] using hnd)).2.1
      have hndChild : ((specLeafEntries val
          (if pfx = "" then key else pfx ++ "." ++ key)).map Prod.fst).Nodup :=
        (List.nodup_append.mp (by simpa [List.map_append] using hndRest)).1
      have hchild := flatten_perm val (if pfx = "" then key else pfx ++ "." ++ key) hndChild
      have hstep := extend_step hchild hnd
      have ih := flattenObjFields_perm rest pfx
        (mapExtend result (flatten_json_to_columns val
          (if pfx = "" then key else pfx ++ "." ++ key))) hstep.2
      rw [hspec]
      have hfin := ih.trans (hstep.1.append_right (specLeafFields pfx rest))
      simpa [List.append_assoc] using hfin

theorem flattenArrElems_perm : ∀ (elems : List Json) (pfx : String) (i : Nat)
      (result : List (String × String)),
      ((result.map Prod.fst) ++ ((specLeafElems pfx i elems).map Prod.fst)).Nodup →
      List.Perm (flattenArrElems pfx i elems result) (result ++ specLeafElems pfx i elems)
  | [], pfx, i, result, _ => by simp [flattenArrElems, specLeafElems]
  | v :: rest, pfx, i, result, hnd => by
      show List.Perm
        (flattenArrElems pfx (i + 1) rest
          (mapExtend result (flatten_json_to_columns v (pfx ++ "[" ++ toString i ++ "]"))))
        _
      have hspec : specLeafElems pfx i (v :: rest) =
          specLeafEntries v (pfx ++ "[" ++ toString i ++ "]") ++
            specLeafElems pfx (i + 1) rest := rfl
      rw [hspec] at hnd
      have hndRest : ((specLeafEntries v (pfx ++ "[" ++ toString i ++ "]") ++
          specLeafElems pfx (i + 1) rest).map Prod.fst).Nodup :=
        (List.nodup_append.mp (by simpa [List.map_append] using hnd)).2.1
      have hndChild : ((specLeafEntries v
          (pfx ++ "[" ++ toString i ++ "]")).map Prod.fst).Nodup :=
        (List.nodup_append.mp (by simpa [List.map_append] using hndRest)).1
      have hchild := flatten_perm v (pfx ++ "[" ++ toString i ++ "]") hndChild
      have hstep := extend_step hchild hnd
      have ih := flattenArrElems_perm rest pfx (i + 1)
        (mapExtend result (flatten_json_to_columns v (pfx ++ "[" ++ toString i ++ "]")))
        hstep.2
      rw [hspec]
      have hfin := ih.trans (hstep.1.append_right (specLeafElems pfx (i + 1) rest))
      simpa [List.append_assoc] using hfin

end

theorem count_eq_one_of_nodup_mem {α : Type} [BEq α] [LawfulBEq α] {l : List α} {a : α}
    (hnd : l.Nodup) (hm : a ∈ l) : l.count a = 1 := by
  induction l with
  | nil => simp at hm
  | cons b rest ih =>
      rw [List.nodup_cons] at hnd
      rcases List.mem_cons.mp hm with rfl | hm
      · rw [List.count_cons_self]
        have hz : rest.count a = 0 := List.count_eq_zero.mpr hnd.1
        omega
      · have hne : a ≠ b := fun hc => hnd.1 (hc ▸ hm)
        rw [List.count_cons_of_ne hne]
        exact ih hnd.2 hm

/-- C4: flattening is path-lossless for every structured value whose
leaves have pairwise distinct paths (the spec's "reachable by a unique
path"): the flattened map is a permutation of the spec's leaf
path/value list, so each leaf scalar appears exactly once in the output
under the path built by the stated rules. -/
theorem flatten_lossless (j : Json)
    (hnd : ((specLeafEntries j "").map Prod.fst).Nodup) :
    List.Perm (flatten_json_to_columns j "") (specLeafEntries j "") ∧
      ∀ pv ∈ specLeafEntries j "", (flatten_json_to_columns j "").count pv = 1 := by
  have hp := flatten_perm j "" hnd
  refine ⟨hp, fun pv hm => ?_⟩
  have hcnt : (specLeafEntries j "").count pv = 1 :=
    count_eq_one_of_nodup_mem (List.Nodup.of_map _ hnd) hm
  have hcp : (flatten_json_to_columns j "").count pv = (specLeafEntries j "").count pv := by
    simpa [List.count] using hp.countP_eq (· == pv)
  exact hcp.trans hcnt

/-- Nested object/array value used by the C4 witness. -/
def c4Json : Json :=
  Json.obj [("a", Json.num 1), ("b", Json.arr [Json.str "x", Json.null]),
    ("c", Json.obj [("d", Json.bool true)])]

/-- Witness for C4 at a concrete nested value with unique paths. -/
theorem flatten_lossless_witness :
    List.Perm (flatten_json_to_columns c4Json "") (specLeafEntries c4Json "") ∧
      ∀ pv ∈ specLeafEntries c4Json "", (flatten_json_to_columns c4Json "").count pv = 1 :=
  flatten_lossless c4Json (by decide)

/-! ### Column ordering (C3) -/

theorem strLe_total (a b : String) : strLe a b = true ∨ strLe b a = true := by
  unfold strLe
  cases h : strLt b a
  · exact Or.inl rfl
  · exact Or.inr (by simp [strLt_asymm h])

theorem strLe_trans {a b c : String} (h1 : strLe a b = true) (h2 : strLe b c = true) :
    strLe a c = true := by
  unfold strLe at h1 h2 ⊢
  rw [Bool.not_eq_true'] at h1 h2 ⊢
  cases h : strLt c a
  · rfl
  · exfalso
    by_cases hab : a = b
    · subst hab
      rw [h] at h2
      simp at h2
    · have hlt : strLt a b = true := strLt_total (Ne.symm hab) h1
      have hcb : strLt c b = true := strLt_trans h hlt
      rw [hcb] at h2
      simp at h2

instance : IsTotal ColumnInfo colLE :=
  ⟨fun a b => by
    unfold colLE
    rcases Nat.lt_trichotomy a.frequency b.frequency with h | h | h
    · exact Or.inr (Or.inl h)
    · rcases strLe_total a.name b.name with hn | hn
      · exact Or.inl (Or.inr ⟨h, hn⟩)
      · exact Or.inr (Or.inr ⟨h.symm, hn⟩)
    · exact Or.inl (Or.inl h)⟩

instance : IsTrans ColumnInfo colLE :=
  ⟨fun a b c hab hbc => by
    unfold colLE at hab hbc ⊢
    rcases hab with h1 | ⟨he1, hn1⟩
    · rcases hbc with h2 | ⟨he2, hn2⟩
      · exact Or.inl (by omega)
      · exact Or.inl (by omega)
    · rcases hbc with h2 | ⟨he2, hn2⟩
      · exact Or.inl (by omega)
      · exact Or.inr ⟨he1.trans he2, strLe_trans hn1 hn2⟩⟩

instance : IsAntisymm ColumnInfo colLT :=
  ⟨fun a b hab hba => by
    unfold colLT at hab hba
    rcases hab with h1 | ⟨he1, hn1⟩ <;> rcases hba with h2 | ⟨he2, hn2⟩
    · omega
    · omega
    · omega
    · exact absurd hn2 (by simp [strLt_asymm hn1])⟩

theorem colLT_of_colLE_ne {a b : ColumnInfo} (hle : colLE a b) (hne : a.name ≠ b.name) :
    colLT a b := by
  rcases hle with h | ⟨he, hn⟩
  · exact Or.inl h
  · refine Or.inr ⟨he, ?_⟩
    have hfalse : strLt b.name a.name = false := by simpa [strLe] using hn
    exact strLt_total (Ne.symm hne) hfalse

theorem sorted_cols_deterministic (others : List ColumnInfo)
    (hnames : (others.map ColumnInfo.name).Pairwise (fun a b => strLt a b = true)) :
    (List.insertionSort colLE others).Pairwise colLT ∧
      ∀ cols', List.Perm cols' others →
        List.insertionSort colLE cols' = List.insertionSort colLE others := by
  have hne : others.Pairwise (fun a b => a.name ≠ b.name) := by
    rw [List.pairwise_map] at hnames
    exact hnames.imp (fun h hc => by simp [hc, strLt_irrefl] at h)
  have upgrade : ∀ l : List ColumnInfo, List.Perm l others →
      (List.insertionSort colLE l).Pairwise colLT := by
    intro l hperm
    have hsorted : (List.insertionSort colLE l).Pairwise colLE :=
      List.sorted_insertionSort colLE l
    have hperm2 : List.Perm (List.insertionSort colLE l) others :=
      (List.perm_insertionSort colLE l).trans hperm
    have hne2 : (List.insertionSort colLE l).Pairwise (fun a b => a.name ≠ b.name) :=
      (List.Perm.pairwise_iff (fun {x y} h => Ne.symm h) hperm2).mpr hne
    exact (hsorted.and hne2).imp (fun h => colLT_of_colLE_ne h.1 h.2)
  refine ⟨upgrade others (List.Perm.refl _), fun cols' hperm => ?_⟩
  have hs1 := upgrade cols' hperm
  have hs2 := upgrade others (List.Perm.refl _)
  have hp12 : List.Perm (List.insertionSort colLE cols')
      (List.insertionSort colLE others) :=
    ((List.perm_insertionSort colLE cols').trans hperm).trans
      (List.perm_insertionSort colLE others).symm
  exact List.eq_of_perm_of_sorted hp12 hs1 hs2

theorem foldl_flatStep_fst :
    ∀ (l : List (String × String))
      (fwr : List (String × Nat) × List (String × Nat) × List (String × String)),
      KeysSorted fwr.1 → KeysSorted ((l.foldl flatStep fwr).1)
  | [], _, h => h
  | kv :: l, fwr, h =>
      foldl_flatStep_fst l (flatStep fwr kv) (keysSorted_alUpsert _ _ _ h)

theorem processLine_freq_sorted (pj : String → Option Json) (st : AnalyzerState)
    (line : String) (h : KeysSorted st.column_frequency) :
    KeysSorted ((processLine pj st line).column_frequency) := by
  simp only [processLine]
  cases hp : pj (parse_log_line line).2.2 with
  | none => exact h
  | some j => exact foldl_flatStep_fst _ _ h

theorem foldl_processLine_freq_sorted (pj : String → Option Json) :
    ∀ (logs : List String) (st : AnalyzerState), KeysSorted st.column_frequency →
      KeysSorted ((logs.foldl (processLine pj) st).column_frequency)
  | [], _, h => h
  | line :: logs, st, h =>
      foldl_processLine_freq_sorted pj logs _ (processLine_freq_sorted pj st line h)

theorem analyzerFreqFinal_sorted (pj : String → Option Json) (logs : List String) :
    KeysSorted (analyzerFreqFinal pj logs) :=
  keysSorted_alInsert _ _ (keysSorted_alInsert _ _
    (foldl_processLine_freq_sorted pj logs ⟨[], [], []⟩ (List.Pairwise.nil)))

theorem analyzerOtherCols_names (pj : String → Option Json) (logs : List String) :
    ((analyzerOtherCols pj logs).map ColumnInfo.name).Pairwise
      (fun a b => strLt a b = true) := by
  unfold analyzerOtherCols otherColumns
  rw [List.map_map, List.pairwise_map]
  exact (analyzerFreqFinal_sorted pj logs).sublist (List.filter_sublist _)

/-- C3: the non-fixed columns of `analyze_json_logs` appear, after the
two fixed columns, sorted by strictly descending frequency with ties
broken by strictly ascending name (`colLT`), and the order is
deterministic: sorting any permutation of the other-column list (any
`HashMap` iteration order) yields the identical column sequence. -/
theorem analyze_columns_order (pj : String → Option Json) (logs : List String) :
    ((analyzeColumns pj logs).drop 2).Pairwise colLT ∧
      (∀ cols', List.Perm cols' (analyzerOtherCols pj logs) →
        List.insertionSort colLE cols' =
          List.insertionSort colLE (analyzerOtherCols pj logs)) ∧
      ∀ out, analyze_json_logs pj logs = some out →
        out.columns = analyzeColumns pj logs := by
  have h := sorted_cols_deterministic (analyzerOtherCols pj logs)
    (analyzerOtherCols_names pj logs)
  refine ⟨h.1, h.2, ?_⟩
  intro out hout
  unfold analyze_json_logs at hout
  cases hm : (analyzerState pj logs).all_rows.mapM
      (materializeRow (analyzeColumns pj logs)) with
  | none => rw [hm] at hout; simp at hout
  | some rows =>
      rw [hm] at hout
      simp only [Option.map_some'] at hout
      injection hout with h'
      exact (congrArg FormattedOutput.columns h').symm

/-- Concrete parse used by the C3 witness: every body is the object
with fields `z` and `b`. -/
def c3pj : String → Option Json :=
  fun _ => some (Json.obj [("b", Json.num 2), ("z", Json.num 1)])

/-- Witness for C3 at one log line: the sorted tail is `b` before `z`
(equal frequency, ascending name), sorting the reversed enumeration
gives the same sequence, and the analyzer output carries exactly these
columns. -/
theorem analyze_columns_order_witness :
    ((analyzeColumns c3pj ["x"]).drop 2).Pairwise colLT ∧
      List.insertionSort colLE (analyzerOtherCols c3pj ["x"]).reverse =
        List.insertionSort colLE (analyzerOtherCols c3pj ["x"]) ∧
      (FormattedOutput.mk
          [⟨"timestamp", 1, 9⟩, ⟨"log_group", 1, 9⟩, ⟨"b", 1, 1⟩, ⟨"z", 1, 1⟩]
          [["", "", "2", "1"]]).columns = analyzeColumns c3pj ["x"] :=
  ⟨(analyze_columns_order c3pj ["x"]).1,
   (analyze_columns_order c3pj ["x"]).2.1 _ (by decide),
   (analyze_columns_order c3pj ["x"]).2.2 _ (by decide)⟩

/-! ### The example scenario (C5) -/

theorem processLine_congr (pj pj' : String → Option Json) (st : AnalyzerState)
    (line : String)
    (h : pj ((parse_log_line line).2.2) = pj' ((parse_log_line line).2.2)) :
    processLine pj st line = processLine pj' st line := by
  simp only [processLine, h]

theorem foldl_processLine_congr (pj pj' : String → Option Json) :
    ∀ (logs : List String) (st : AnalyzerState),
      (∀ line ∈ logs, pj ((parse_log_line line).2.2) = pj' ((parse_log_line line).2.2)) →
      logs.foldl (processLine pj) st = logs.foldl (processLine pj') st
  | [], _, _ => rfl
  | line :: logs, st, h => by
      rw [List.foldl_cons, List.foldl_cons,
        processLine_congr pj pj' st line (h line (List.mem_cons_self _ _)),
        foldl_processLine_congr pj pj' logs _ (fun l hl => h l (List.mem_cons_of_mem _ hl))]

theorem analyze_json_logs_congr (pj pj' : String → Option Json) (logs : List String)
    (h : ∀ line ∈ logs, pj ((parse_log_line line).2.2) = pj' ((parse_log_line line).2.2)) :
    analyze_json_logs pj logs = analyze_json_logs pj' logs := by
  have hst : analyzerState pj logs = analyzerState pj' logs :=
    foldl_processLine_congr pj pj' logs _ h
  have hcols : analyzeColumns pj logs = analyzeColumns pj' logs := by
    unfold analyzeColumns analyzerOtherCols analyzerFreqFinal
    rw [hst]
  unfold analyze_json_logs
  rw [hst, hcols]

/-- The two log lines of the spec's example scenario. -/
def c5Line1 : String :=
  "[2024-01-01T00:00:00Z] [streamA] \x7b\"level\":\"error\",\"code\":500\x7d"

def c5Line2 : String := "[2024-01-01T00:00:01Z] [streamB] \x7b\"level\":\"info\"\x7d"

/-- The JSON bodies of the two lines, as extracted by `parse_log_line`. -/
def c5Body1 : String := "\x7b\"level\":\"error\",\"code\":500\x7d"

def c5Body2 : String := "\x7b\"level\":\"info\"\x7d"

/-- `serde_json` parse of the first body (fields in `BTreeMap` order). -/
def c5Json1 : Json := Json.obj [("code", Json.num 500), ("level", Json.str "error")]

/-- `serde_json` parse of the second body. -/
def c5Json2 : Json := Json.obj [("level", Json.str "info")]

/-- The output the analyzer produces on the example scenario. -/
def c5Expected : FormattedOutput :=
  ⟨[⟨"timestamp", 2, 20⟩, ⟨"log_group", 2, 9⟩, ⟨"level", 2, 5⟩, ⟨"code", 1, 4⟩],
   [["2024-01-01T00:00:00Z", "streamA", "error", "500"],
    ["2024-01-01T00:00:01Z", "streamB", "info", ""]]⟩

/-- The concrete parse function used by the C5 witness. -/
def c5pj : String → Option Json :=
  fun s =>
    if s = c5Body1 then some c5Json1
    else if s = c5Body2 then some c5Json2
    else none

set_option maxRecDepth 16000 in
/-- C5: on the two example lines, for any parse collaborator that parses
their bodies to the serde values, `analyze_json_logs` produces the
columns `timestamp, log_group, level, code` — `level` (frequency 2)
sorting before `code` (frequency 1) — and two rows whose `code` cell is
blank in row 2. -/
theorem analyze_example_scenario (pj : String → Option Json)
    (h1 : pj c5Body1 = some c5Json1) (h2 : pj c5Body2 = some c5Json2) :
    analyze_json_logs pj [c5Line1, c5Line2] = some c5Expected := by
  have hb1 : (parse_log_line c5Line1).2.2 = c5Body1 := by decide
  have hb2 : (parse_log_line c5Line2).2.2 = c5Body2 := by decide
  have hcongr := analyze_json_logs_congr pj c5pj [c5Line1, c5Line2] ?_
  · rw [hcongr]
    rfl
  · intro line hline
    rcases List.mem_cons.mp hline with rfl | hline
    · rw [hb1, h1]
      rfl
    · rcases List.mem_cons.mp hline with rfl | hline
      · rw [hb2, h2]
        rfl
      · simp at hline

set_option maxRecDepth 16000 in
/-- Witness for C5: the scenario evaluated at the concrete parser. -/
theorem analyze_example_scenario_witness :
    analyze_json_logs c5pj [c5Line1, c5Line2] = some c5Expected :=
  analyze_example_scenario c5pj rfl rfl

/-! ### JSON fields overwriting the fixed cells (C9) -/

theorem keysSorted_nodup_keys {β : Type} {m : List (String × β)} (h : KeysSorted m) :
    (m.map Prod.fst).Nodup := by
  have hp : (m.map Prod.fst).Pairwise (fun a b => a ≠ b) := by
    rw [List.pairwise_map]
    exact h.imp (fun hlt hc => by simp [hc, strLt_irrefl] at hlt)
  exact hp

mutual

theorem flatten_keysSorted : ∀ (v : Json) (pfx : String),
    KeysSorted (flatten_json_to_columns v pfx)
  | .null, pfx => by simp [flatten_json_to_columns, alInsert]
  | .bool b, pfx => by simp [flatten_json_to_columns, alInsert]
  | .num n, pfx => by simp [flatten_json_to_columns, alInsert]
  | .str s, pfx => by simp [flatten_json_to_columns, alInsert]
  | .arr elems, pfx => flattenArrElems_keysSorted elems pfx 0 [] List.Pairwise.nil
  | .obj fields, pfx => flattenObjFields_keysSorted fields pfx [] List.Pairwise.nil

theorem flattenObjFields_keysSorted : ∀ (fields : List (String × Json)) (pfx : String)
      (result : List (String × String)), KeysSorted result →
      KeysSorted (flattenObjFields pfx fields result)
  | [], _, _, h => h
  | (key, val) :: rest, pfx, result, h => by
      rw [flattenObjFields_eq]
      exact flattenObjFields_keysSorted rest pfx _ (keysSorted_mapExtend _ h)

theorem flattenArrElems_keysSorted : ∀ (elems : List Json) (pfx : String) (i : Nat)
      (result : List (String × String)), KeysSorted result →
      KeysSorted (flattenArrElems pfx i elems result)
  | [], _, _, _, h => h
  | v :: rest, pfx, i, result, h =>
      flattenArrElems_keysSorted rest pfx (i + 1) _ (keysSorted_mapExtend _ h)

end

theorem mapM_option_get? {α β : Type} (f : α → Option β) :
    ∀ (l : List α) (l' : List β), l.mapM f = some l' →
      ∀ i, l'.get? i = (l.get? i).bind f
  | [], l', h, i => by
      simp only [List.mapM_nil, pure, Option.some.injEq] at h
      subst h
      simp
  | a :: l, l', h, i => by
      rw [List.mapM_cons] at h
      cases hfa : f a with
      | none => rw [hfa] at h; simp at h
      | some b =>
          rw [hfa] at h
          cases hml : l.mapM f with
          | none => rw [hml] at h; simp at h
          | some bs =>
              rw [hml] at h
              simp only [Option.bind_some, Option.pure_def, Option.bind_eq_bind,
                Option.some_bind, Option.some.injEq] at h
              subst h
              cases i with
              | zero => simp [hfa]
              | succ n =>
                  simp only [List.get?_cons_succ]
                  exact mapM_option_get? f l bs hml n

theorem mapM_option_mem {α β : Type} (f : α → Option β) :
    ∀ (l : List α) (l' : List β), l.mapM f = some l' → ∀ a ∈ l, ∃ b, f a = some b
  | [], _, _, a, ha => by simp at ha
  | x :: l, l', h, a, ha => by
      rw [List.mapM_cons] at h
      cases hfa : f x with
      | none => rw [hfa] at h; simp at h
      | some b =>
          rw [hfa] at h
          cases hml : l.mapM f with
          | none => rw [hml] at h; simp at h
          | some bs =>
              rcases List.mem_cons.mp ha with rfl | ha
              · exact ⟨b, hfa⟩
              · exact mapM_option_mem f l bs hml a ha

theorem foldl_flatStep_row :
    ∀ (l : List (String × String))
      (fwr : List (String × Nat) × List (String × Nat) × List (String × String)),
      (l.foldl flatStep fwr).2.2 = mapExtend fwr.2.2 l
  | [], _ => rfl
  | kv :: l, fwr => foldl_flatStep_row l (flatStep fwr kv)

theorem processLine_rows (pj : String → Option Json) (st : AnalyzerState) (line : String) :
    (processLine pj st line).all_rows = st.all_rows ++ [buildRowMap pj line] := by
  simp only [processLine, buildRowMap]
  cases hp : pj (parse_log_line line).2.2 with
  | none => rfl
  | some j => simp [foldl_flatStep_row]

theorem foldl_processLine_rows (pj : String → Option Json) :
    ∀ (logs : List String) (st : AnalyzerState),
      (logs.foldl (processLine pj) st).all_rows = st.all_rows ++ logs.map (buildRowMap pj)
  | [], st => by simp
  | line :: logs, st => by
      rw [List.foldl_cons, foldl_processLine_rows pj logs _, processLine_rows, List.map_cons]
      simp

theorem analyzerState_rows (pj : String → Option Json) (logs : List String) :
    (analyzerState pj logs).all_rows = logs.map (buildRowMap pj) := by
  simpa using foldl_processLine_rows pj logs ⟨[], [], []⟩

/-- C9: when a line's body parses to JSON whose flattened entries
contain a top-level `timestamp` (or `log_group`) path, the later row
insertion overwrites the value extracted from the bracketed prefix:
the row map yields the JSON value, the materialized cell in that row's
fixed column is the (truncated) JSON value, and the fixed columns still
report frequency equal to the total row count. -/
theorem json_overrides_fixed_columns (pj : String → Option Json) (logs : List String)
    (line : String) (k v : String) (j : Json)
    (hk : k = "timestamp" ∨ k = "log_group")
    (hparse : pj ((parse_log_line line).2.2) = some j)
    (hmem : (k, v) ∈ flatten_json_to_columns j "") :
    alookup k (buildRowMap pj line) = some v ∧
      ((analyzeColumns pj logs).map ColumnInfo.frequency).take 2 =
        [logs.length, logs.length] ∧
      ∀ i out, analyze_json_logs pj logs = some out → logs.get? i = some line →
        ∃ row, out.rows.get? i = some row ∧
          row.get? (if k = "timestamp" then 0 else 1) = truncate_string v 100 := by
  have hnodup : ((flatten_json_to_columns j "").map Prod.fst).Nodup :=
    keysSorted_nodup_keys (flatten_keysSorted j "")
  have hlook : alookup k (buildRowMap pj line) = some v := by
    have hb : buildRowMap pj line =
        mapExtend (alInsert "log_group" (parse_log_line line).2.1
          (alInsert "timestamp" (parse_log_line line).1 []))
          (flatten_json_to_columns j "") := by
      simp only [buildRowMap, hparse]
    rw [hb]
    exact alookup_mapExtend_mem hnodup hmem _
  refine ⟨hlook, rfl, ?_⟩
  intro i out hout hline
  unfold analyze_json_logs at hout
  cases hm : (analyzerState pj logs).all_rows.mapM
      (materializeRow (analyzeColumns pj logs)) with
  | none => rw [hm] at hout; simp at hout
  | some rows =>
      rw [hm] at hout
      simp only [Option.map_some'] at hout
      injection hout with hout'
      have hrows_i : (analyzerState pj logs).all_rows.get? i =
          some (buildRowMap pj line) := by
        rw [analyzerState_rows, List.get?_map, hline]
        rfl
      have hmemrow : buildRowMap pj line ∈ (analyzerState pj logs).all_rows :=
        List.get?_mem hrows_i
      obtain ⟨row, hrow⟩ := mapM_option_mem _ _ rows hm _ hmemrow
      refine ⟨row, ?_, ?_⟩
      · have hg := mapM_option_get? _ _ rows hm i
        rw [← hout']
        show rows.get? i = some row
        rw [hg, hrows_i]
        simpa using hrow
      · simp only [materializeRow] at hrow
        have hg := mapM_option_get?
          (fun col => truncate_string ((alookup col.name (buildRowMap pj line)).getD "") 100)
          (analyzeColumns pj logs) row hrow
        rcases hk with rfl | rfl
        · rw [if_pos rfl, hg 0]
          show Option.bind (some (⟨"timestamp", logs.length,
              max ((alookup "timestamp" (analyzerState pj logs).column_max_width).getD 9) 9⟩ :
                ColumnInfo))
            (fun col => truncate_string ((alookup col.name (buildRowMap pj line)).getD "") 100) =
            truncate_string v 100
          show truncate_string ((alookup "timestamp" (buildRowMap pj line)).getD "") 100 =
            truncate_string v 100
          rw [hlook]
          rfl
        · rw [if_neg (by decide), hg 1]
          show Option.bind (some (⟨"log_group", logs.length,
              max ((alookup "log_group" (analyzerState pj logs).column_max_width).getD 9) 9⟩ :
                ColumnInfo))
            (fun col => truncate_string ((alookup col.name (buildRowMap pj line)).getD "") 100) =
            truncate_string v 100
          show truncate_string ((alookup "log_group" (buildRowMap pj line)).getD "") 100 =
            truncate_string v 100
          rw [hlook]
          rfl

/-- JSON value used by the C9 witness: a top-level `timestamp` field. -/
def c9Json : Json := Json.obj [("timestamp", Json.str "T")]

/-- Parse collaborator used by the C9 witness. -/
def c9pj : String → Option Json := fun _ => some c9Json

/-- Witness for C9: the line's bracketed timestamp `t` is overwritten by
the JSON field value `T` in the row map and in the materialized cell,
while the fixed columns report frequency 1 (= row count). -/
theorem json_overrides_fixed_columns_witness :
    alookup "timestamp" (buildRowMap c9pj "[t] [g] x") = some "T" ∧
      ((analyzeColumns c9pj ["[t] [g] x"]).map ColumnInfo.frequency).take 2 =
        [(["[t] [g] x"] : List String).length, (["[t] [g] x"] : List String).length] ∧
      ∃ row, (FormattedOutput.mk
          [⟨"timestamp", 1, 9⟩, ⟨"log_group", 1, 9⟩] [["T", "g"]]).rows.get? 0 =
            some row ∧
        row.get? (if "timestamp" = "timestamp" then 0 else 1) = truncate_string "T" 100 :=
  ⟨(json_overrides_fixed_columns c9pj ["[t] [g] x"] "[t] [g] x" "timestamp" "T" c9Json
      (Or.inl rfl) rfl (by decide)).1,
   (json_overrides_fixed_columns c9pj ["[t] [g] x"] "[t] [g] x" "timestamp" "T" c9Json
      (Or.inl rfl) rfl (by decide)).2.1,
   (json_overrides_fixed_columns c9pj ["[t] [g] x"] "[t] [g] x" "timestamp" "T" c9Json
      (Or.inl rfl) rfl (by decide)).2.2 0
     (FormattedOutput.mk [⟨"timestamp", 1, 9⟩, ⟨"log_group", 1, 9⟩] [["T", "g"]])
     rfl rfl⟩
